import Mathlib

/-!
Verification development for the Giant Steps solo/comping generator
(GiantStepsv1.py).  The Python source is shallowly embedded: pitches are
integers (absolute semitone values, 60 = middle C), chords are structures
holding a root, an ordered pitch list and the derived semitone list, and
every fallible operation (Python exceptions: ZeroDivisionError from
`inversion % len(quality)` on an empty pattern, AssertionError from real
asserts, AttributeError from a missing `scale` attribute, IndexError from
out-of-range subscripts) is modelled with `Option`/`Except`.

Python-2 specifics that matter and are mirrored here:
  - `map` returns a fresh list, so `line = map(...)` rebinds `line` and
    stops aliasing the chord's pitch list;
  - list slices clamp indices (`ch[k:]` for `k >= len` is `[]`, negative
    `k` counts from the end, `k <= -len` yields the whole list);
  - `assert(cond, msg)` is an assert on a 2-tuple, which is always truthy
    and never fires; only single-expression asserts are modelled;
  - `%` on ints returns a value in `[0, len)` for a positive modulus,
    matching `Int.emod`;
  - the module-level accumulators `soloLinePitches`/`soloLineRhythms` are
    never reset between generation runs, so each run is modelled as a
    function of the accumulator it starts from.
-/

/-- Decidable equality for `Except` results, used to settle concrete runs
of the embedded pipeline by computation. -/
instance {e a : Type} [DecidableEq e] [DecidableEq a] : DecidableEq (Except e a) := fun x y =>
  match x, y with
  | .ok u, .ok v =>
    if h : u = v then isTrue (congrArg Except.ok h)
    else isFalse (fun hx => h (Except.ok.inj hx))
  | .error u, .error v =>
    if h : u = v then isTrue (congrArg Except.error h)
    else isFalse (fun hx => h (Except.error.inj hx))
  | .ok _, .error _ => isFalse (fun hx => Except.noConfusion hx)
  | .error _, .ok _ => isFalse (fun hx => Except.noConfusion hx)

/-- Modelled from the spec: the host library's rest sentinel, a
distinguished pitch value that "must never participate in pitch
arithmetic"; the library uses the most negative 32-bit integer, and the
source detects rests via `pitch < 0`. -/
def REST : Int := -2147483648

/-- Modelled from the spec: the host library's pitch constant BF4 used as
the configured lower bound of the playable band (absolute semitones,
60 = middle C). -/
def LOWEST_NOTE : Int := 70

/-- Modelled from the spec: the host library's pitch constant C6 used as
the configured upper bound of the playable band. -/
def HIGHEST_NOTE : Int := 84

/-- Chord quality from the source: MAJOR_TRIAD = [0,4,7]. -/
def MAJOR_TRIAD : List Int := [0, 4, 7]

/-- Chord quality from the source: DOMINANT_SEVENTH = [0,4,7,10]. -/
def DOMINANT_SEVENTH : List Int := [0, 4, 7, 10]

/-- Chord quality from the source: MAJOR_SEVENTH = [0,4,7,11]. -/
def MAJOR_SEVENTH : List Int := [0, 4, 7, 11]

/-- Chord quality from the source: MINOR_SEVENTH = [0,3,7,10]. -/
def MINOR_SEVENTH : List Int := [0, 3, 7, 10]

/-- Modelled from the spec: the host library's MAJOR_SCALE (Ionian)
semitone offsets, the scale attached to major-seventh chords. -/
def MAJOR_SCALE : List Int := [0, 2, 4, 5, 7, 9, 11]

/-- Modelled from the spec: the host library's AEOLIAN_SCALE semitone
offsets, the scale attached to minor-seventh chords. -/
def AEOLIAN_SCALE : List Int := [0, 2, 3, 5, 7, 8, 10]

/-- Modelled from the spec: the host library's MIXOLYDIAN_SCALE semitone
offsets, the scale attached to dominant-seventh chords. -/
def MIXOLYDIAN_SCALE : List Int := [0, 2, 4, 5, 7, 9, 10]

/-- Modelled from the spec: the host library's (major) PENTATONIC_SCALE;
the source's own comment records its value as [0, 2, 4, 7, 9]. -/
def PENTATONIC_SCALE : List Int := [0, 2, 4, 7, 9]

/-- From the source config constants. -/
def MINOR_PENTATONIC_SCALE : List Int := [0, 2, 3, 7, 9]

/-- From the source config constants. -/
def MAJOR_PENTATONIC_LINE : List Int := [0, 2, 4, 5, 7, 9, 11, 14]

/-- From the source config constants. -/
def MINOR_PENTATONIC_LINE : List Int := [0, 2, 3, 5, 7, 9, 11, 14]

/-- Effective start/stop index of a Python slice `l[i:]` / `l[:i]` on a
list of length `n`: negative indices count from the end and everything is
clamped into `[0, n]`. -/
def pyIndex (n : Nat) (i : Int) : Nat :=
  if i < 0 then ((n : Int) + i).toNat else min i.toNat n

/-- Python subscript `l[i]` (negative indices count from the end), raising
IndexError when out of range. -/
def pyGet (l : List Int) (i : Int) : Option Int :=
  let j : Int := if i < 0 then (l.length : Int) + i else i
  if h : 0 ≤ j ∧ j < (l.length : Int) then some (l.getD j.toNat 0) else none

/-- Body of `Chord.invert`: `ch[inversion:] + map(lambda x: OCTAVE+x,
ch[:inversion])` with Python slice semantics. -/
def invertPitches (ps : List Int) (k : Int) : List Int :=
  let j := pyIndex ps.length k
  ps.drop j ++ (ps.take j).map (fun x => x + 12)

/-- Python's `list.sort()` on integer pitches: sort ascending. -/
def sortPitches (l : List Int) : List Int :=
  l.insertionSort (fun a b => a ≤ b)

/-- The `Chord` class: a root pitch, the pitch list, and the semitone list
(each pitch minus the root) that the class keeps alongside it. -/
structure Chord where
  root : Int
  pitches : List Int
  semitones : List Int
  deriving DecidableEq, Repr

/-- `Chord.invert`: replaces `pitches` by `pitches[k:] + (pitches[:k] each
+12)` and recomputes `semitones`; mutating in the source, modelled by
returning the updated chord (the source ends with `return self`). -/
def Chord.invert (c : Chord) (k : Int) : Chord :=
  let p := invertPitches c.pitches k
  { c with pitches := p, semitones := p.map (fun x => x - c.root) }

/-- `Chord.__init__(root, quality, inversion)`: `inversion % len(quality)`
raises ZeroDivisionError on an empty pattern (modelled as `none`), then
pitches are built from the pattern, inverted, sorted ascending, and the
semitone list is recomputed. -/
def mkChord (root : Int) (quality : List Int) (inversion : Int) : Option Chord :=
  if quality = [] then none
  else
    let inv := inversion % (quality.length : Int)
    let base : Chord := { root := root, pitches := quality.map (fun q => root + q), semitones := [] }
    let sorted := sortPitches (base.invert inv).pitches
    some { root := root, pitches := sorted, semitones := sorted.map (fun p => p - root) }

/-- The list-argument branch of `Chord.__sub__`: `while p in temp.pitches:
temp.pitches.remove(p)` removes every occurrence of each listed pitch. -/
def removeAll (l : List Int) (ps : List Int) : List Int :=
  ps.foldl (fun acc p => acc.filter (fun x => x ≠ p)) l

/-- `Chord.__sub__(self, pitch)` for a list argument: builds a fresh chord
`temp = Chord(root, deepcopy(semitones))`, removes all occurrences of each
listed pitch from `temp.pitches`, sorts, and returns `temp`; `self` is
only read.  The pair returned is (state of `self` after the call, the
returned chord); the second component is `none` when rebuilding the chord
from an empty semitone list raises ZeroDivisionError. -/
def Chord.subPitches (c : Chord) (ps : List Int) : Chord × Option Chord :=
  match mkChord c.root c.semitones 0 with
  | none => (c, none)
  | some temp =>
    let removed := removeAll temp.pitches ps
    let sorted := sortPitches removed
    (c, some { temp with pitches := sorted, semitones := sorted.map (fun p => p - temp.root) })

/-- Python exceptions that can escape the generation pipeline. -/
inductive Err where
  | zeroDivisionError
  | assertionError
  | attributeError
  | indexError
  deriving DecidableEq, Repr

/-- The three scale constants a `JazzChord` may carry; object identity of
the host library's scale lists is modelled by this tag. -/
inductive ScaleTag where
  | major
  | aeolian
  | mixolydian
  deriving DecidableEq, Repr

/-- The offsets of each scale constant. -/
def scaleList : ScaleTag → List Int
  | .major => MAJOR_SCALE
  | .aeolian => AEOLIAN_SCALE
  | .mixolydian => MIXOLYDIAN_SCALE

/-- Identity (`is`) of the quality argument passed to `JazzChord`: the
three module-level pattern constants are unique objects, and any other
list — even one equal in value to a constant — is a distinct object. -/
inductive QualityRef where
  | maj7
  | min7
  | dom7
  | otherList (l : List Int)
  deriving DecidableEq, Repr

/-- The interval list a quality reference denotes. -/
def qualityList : QualityRef → List Int
  | .maj7 => MAJOR_SEVENTH
  | .min7 => MINOR_SEVENTH
  | .dom7 => DOMINANT_SEVENTH
  | .otherList l => l

/-- `JazzChord`: a `Chord` plus the conditionally-set `scale` attribute
(`none` models the attribute being absent). -/
structure JazzChord where
  root : Int
  pitches : List Int
  semitones : List Int
  scale : Option ScaleTag
  deriving DecidableEq, Repr

/-- `JazzChord.__init__(root, quality, inversion)`: calls
`Chord.__init__(self, root, quality, inversion=0)` — the literal 0, not
the caller's argument — then asserts no pitch is negative, then attaches a
scale only when `quality is` one of the three recognized constants. -/
def mkJazzChord (root : Int) (q : QualityRef) (inversion : Int) : Except Err JazzChord :=
  match mkChord root (qualityList q) 0 with
  | none => .error .zeroDivisionError
  | some c =>
    if ∃ x ∈ c.pitches, x < 0 then .error .assertionError
    else
      .ok { root := c.root, pitches := c.pitches, semitones := c.semitones,
            scale := match q with
              | .maj7 => some .major
              | .min7 => some .aeolian
              | .dom7 => some .mixolydian
              | .otherList _ => none }

/-- Inherited `Chord.invert` on a `JazzChord`. -/
def JazzChord.invert (c : JazzChord) (k : Int) : JazzChord :=
  let p := invertPitches c.pitches k
  { c with pitches := p, semitones := p.map (fun x => x - c.root) }

/-- `JazzChord.dropOctave`: subtracts 12 from every pitch (the semitone
list is left stale, as in the source). -/
def JazzChord.dropOctave (c : JazzChord) : JazzChord :=
  { c with pitches := c.pitches.map (fun x => x - 12) }

/-- `JazzChord.raiseOctave`: adds 12 to every pitch. -/
def JazzChord.raiseOctave (c : JazzChord) : JazzChord :=
  { c with pitches := c.pitches.map (fun x => x + 12) }

/-- Reading `chord.scale`: AttributeError when the attribute was never
set. -/
def getScaleTag (c : JazzChord) : Except Err ScaleTag :=
  match c.scale with
  | none => .error .attributeError
  | some s => .ok s

/-- Reading `l[i]` inside the generator, as an `Except`. -/
def pyGetE (l : List Int) (i : Int) : Except Err Int :=
  match pyGet l i with
  | none => .error .indexError
  | some v => .ok v

/-- The range clamp at the end of `create_line`: if any note (rest
sentinels included) is below `LOWEST_NOTE` the whole line moves up an
octave, then if any note of the (possibly shifted) line is above
`HIGHEST_NOTE` the whole line moves down an octave. -/
def clampLine (l : List Int) : List Int :=
  let l1 := if ∃ x ∈ l, x < LOWEST_NOTE then l.map (fun x => x + 12) else l
  if ∃ x ∈ l1, HIGHEST_NOTE < x then l1.map (fun x => x - 12) else l1

/-- The per-degree pattern dispatch of `create_line`: returns the raw line,
the state of the chord argument after the branch, and whether the raw line
aliases the chord's own pitch list (so later in-place appends also land in
the chord).  Failures: AttributeError when a branch consults a missing
`scale`, IndexError from subscripts, AssertionError from the
`assert(False)` on an unsupported degree, and errors from building the
pentatonic helper chord. -/
def lineBranch (start : Int) (c : JazzChord) (direction : Int) (numNotes : Nat)
    (sp : Int) : Except Err (List Int × JazzChord × Bool) :=
  if sp = 1 then do
    let s ← getScaleTag c
    let pent0 ←
      if s = .major ∨ s = .mixolydian then
        mkJazzChord start (.otherList (PENTATONIC_SCALE.take numNotes)) 0
      else
        mkJazzChord start (.otherList (MINOR_PENTATONIC_SCALE.take numNotes)) 0
    let pent ←
      if numNotes > 4 then
        if direction = 1 then
          mkJazzChord start (.otherList (MAJOR_PENTATONIC_LINE.take numNotes)) 0
        else
          mkJazzChord start (.otherList (MAJOR_PENTATONIC_LINE.take 4)) 0
      else pure pent0
    if direction = 0 then
      let p := JazzChord.dropOctave (pent.invert 1)
      pure (p.pitches.reverse, c, false)
    else
      pure (pent.pitches, c, false)
  else if sp = 3 then
    if direction = 0 then
      let c2 := JazzChord.dropOctave (c.invert 2)
      let c3 := { c2 with pitches := c2.pitches.reverse }
      pure (c3.pitches, c3, true)
    else
      let c2 := c.invert 1
      pure (c2.pitches, c2, true)
  else if sp = 5 then
    if numNotes = 8 then do
      let p0 ← pyGetE c.pitches 0
      let s ← getScaleTag c
      let sc := scaleList s
      let a4 ← pyGetE sc 4
      let a3 ← pyGetE sc 3
      let a2 ← pyGetE sc 2
      let a1 ← pyGetE sc 1
      let a0 ← pyGetE sc 0
      pure ([p0 + a4, p0 + a3, p0 + a2, p0 + a1, p0 + a0, p0 + a1, p0 + a2, p0 + a4], c, false)
    else
      if direction = 0 then
        let c2 := JazzChord.dropOctave (c.invert 3)
        let c3 := { c2 with pitches := c2.pitches.reverse }
        pure (c3.pitches, c3, true)
      else
        let c2 := c.invert 2
        pure (c2.pitches, c2, true)
  else if sp = 7 then
    if direction = 0 then
      pure (c.pitches, c, true)
    else
      let c2 := c.invert 3
      pure (c2.pitches, c2, true)
  else if sp = 4 then do
    let p0 ← pyGetE c.pitches 0
    pure ([p0 + 5, p0 + 4, p0 + 3, p0 + 2], c, false)
  else if sp = 2 then do
    let p0 ← pyGetE c.pitches 0
    let s ← getScaleTag c
    let sc := scaleList s
    let b1 ← pyGetE sc 1
    let b6 ← pyGetE sc 6
    let b5 ← pyGetE sc 5
    let b4 ← pyGetE sc 4
    pure ([p0 + b1, p0 + b6 - 12, p0 + b5 - 12, p0 + b4 - 12], c, false)
  else if sp = 6 then do
    let p0 ← pyGetE c.pitches 0
    let s ← getScaleTag c
    let sc := scaleList s
    let b5 ← pyGetE sc 5
    let b4 ← pyGetE sc 4
    let b2 ← pyGetE sc 2
    pure ([p0 + b5 - 12, p0 + b4 - 12, p0 + b2 - 12, p0], c, false)
  else
    .error .assertionError

/-- `create_line(start, end, jazz_chord, direction, num_notes, sp)` with
the rest-checkbox state as an explicit argument.  Returns the line handed
back to the caller and the state of the chord argument after the call
(the line is rebound by `map` in the clamp step, so the clamp never
touches the chord). -/
def createLine (start «end» : Int) (c : JazzChord) (direction : Int)
    (numNotes : Nat) (sp : Int) (rest : Bool) : Except Err (List Int × JazzChord) :=
  if start < 0 then .ok (List.replicate numNotes REST, c)
  else do
    let (raw, c1, aliased) ← lineBranch start c direction numNotes sp
    let filled ←
      if rest then
        pure (raw ++ List.replicate (numNotes - raw.length) REST)
      else
        if raw.length = 0 then (.error .zeroDivisionError : Except Err (List Int))
        else pure (List.join (List.replicate (numNotes / raw.length) raw))
    let c2 := if aliased then { c1 with pitches := filled } else c1
    pure (clampLine filled, c2)

/-- DEFAULT_DOWN_BEAT_SCALE_DEGREES from the source. -/
def DEFAULT_DOWN_BEAT_SCALE_DEGREES : List Int :=
  [1, 1, 1, 2, 1, 5, 3, 3, 3, 1, 7, 7, 4, 5, 5, 5, 4, 5, 2, 1, 1, 1, 6, 1, 6, 3]

/-- DEFAULT_LINE_DIRECTIONS from the source. -/
def DEFAULT_LINE_DIRECTIONS : List Int :=
  [1, 1, 0, 0, 1, 0, 1, 1, 1, 1, 1, 0, 0, 0, 1, 0, 1, 0, 0, 1, 1, 0, 0, 1, 1, 0]

/-- The per-slot note counts `int(rhythmList[i] / EN)` for one chorus of
`generate_chorus_chord_rhythms()`: a half note yields 4 eighth notes, a
whole note 8. -/
def chorusLineLengths : List Int :=
  [4, 4, 4, 4, 8, 4, 4, 4, 4, 4, 4, 8, 4, 4, 8, 4, 4, 8, 4, 4, 8, 4, 4, 8, 4, 4]

/-- `generate_chorus_changes()`: the 26 fresh chords of one chorus of the
Giant Steps form (roots are the host library's pitch constants: B4 = 71,
D4 = 62, G4 = 67, BF4 = 70, EF4 = 63, A4 = 69, FS4 = 66, F4 = 65,
CS4 = 61). -/
def generateChorusChanges : Except Err (List JazzChord) := do
  let c1 ← mkJazzChord 71 .maj7 0
  let c2 ← mkJazzChord 62 .dom7 0
  let c3 ← mkJazzChord 67 .maj7 0
  let c4 ← mkJazzChord 70 .dom7 0
  let c5 ← mkJazzChord 63 .maj7 0
  let c6 ← mkJazzChord 69 .min7 0
  let c7 ← mkJazzChord 62 .dom7 0
  let c8 ← mkJazzChord 67 .maj7 0
  let c9 ← mkJazzChord 70 .dom7 0
  let c10 ← mkJazzChord 63 .maj7 0
  let c11 ← mkJazzChord 66 .dom7 0
  let c12 ← mkJazzChord 71 .maj7 0
  let c13 ← mkJazzChord 65 .min7 0
  let c14 ← mkJazzChord 70 .dom7 0
  let c15 ← mkJazzChord 63 .maj7 0
  let c16 ← mkJazzChord 69 .min7 0
  let c17 ← mkJazzChord 62 .dom7 0
  let c18 ← mkJazzChord 67 .maj7 0
  let c19 ← mkJazzChord 61 .min7 0
  let c20 ← mkJazzChord 66 .dom7 0
  let c21 ← mkJazzChord 71 .maj7 0
  let c22 ← mkJazzChord 65 .min7 0
  let c23 ← mkJazzChord 70 .dom7 0
  let c24 ← mkJazzChord 63 .maj7 0
  let c25 ← mkJazzChord 61 .min7 0
  let c26 ← mkJazzChord 66 .dom7 0
  pure [c1, c2, c3, c4, c5, c6, c7, c8, c9, c10, c11, c12, c13, c14, c15, c16,
        c17, c18, c19, c20, c21, c22, c23, c24, c25, c26]

/-- Resolving a downbeat: `chord.pitches[0] + chord.scale[degree - 1]` for
a positive degree, the rest sentinel otherwise. -/
def resolveDownBeat (c : JazzChord) (d : Int) : Except Err Int :=
  if d > 0 then do
    let p0 ← pyGetE c.pitches 0
    let s ← getScaleTag c
    let off ← pyGetE (scaleList s) (d - 1)
    pure (p0 + off)
  else pure REST

/-- The first pass of `generate_solo`: iterate the chord list, resolve the
current and next downbeats, call `create_line`, and append the line to the
module-level accumulator.  The source's 2-tuple asserts in this loop never
fire and are omitted.  On an exception the accumulator keeps everything
appended so far. -/
def firstPassGo (degrees dirs lens : List Int) (rest : Bool) :
    List JazzChord → Nat → List Int → List Int × Option Err
  | [], _, acc => (acc, none)
  | c :: tl, i, acc =>
    let step : Except Err (List Int) := do
      let d ← pyGetE degrees i
      let down ← resolveDownBeat c d
      let nxt ←
        match tl with
        | [] => pure 0
        | c2 :: _ => do
          let d2 ← pyGetE degrees ((i : Int) + 1)
          if d2 > 0 then do
            let v ← resolveDownBeat c2 d2
            pure v
          else pure 0
      let dir ← pyGetE dirs i
      let n ← pyGetE lens i
      let r ← createLine down nxt c dir n.toNat d rest
      pure r.1
    match step with
    | .error e => (acc, some e)
    | .ok line => firstPassGo degrees dirs lens rest tl (i + 1) (acc ++ line)

/-- One element update of the smoothing pass: `soloLinePitches[j] -= 12`. -/
def subOct (l : List Int) (j : Nat) : List Int :=
  l.set j (l.getD j 0 - 12)

/-- The four updates fired by one smoothing trigger. -/
def shiftWindow (l : List Int) (i : Nat) : List Int :=
  subOct (subOct (subOct (subOct l (i + 1)) (i + 2)) (i + 3)) (i + 4)

/-- The smoothing loop of `generate_solo`, by index: breaks as soon as
`i >= len - 4`; skips rests (`pitch < 0`); when the next pitch is an
octave or more above the current one (`pitch - next <= -12`) the next four
entries are lowered an octave.  Only this downward correction exists; the
converse block is commented out in the source. -/
def smoothGo : Nat → Nat → List Int → List Int
  | 0, _, l => l
  | fuel + 1, i, l =>
    if i + 4 ≥ l.length then l
    else
      smoothGo fuel (i + 1)
        (if 0 ≤ l.getD i 0 ∧ l.getD i 0 - l.getD (i + 1) 0 ≤ -12 then shiftWindow l i else l)

/-- The full smoothing pass (the list length never changes, so the loop
runs at most `length` steps). -/
def smoothPass (l : List Int) : List Int :=
  smoothGo l.length 0 l

/-- The final pass of `generate_solo`: every negative pitch is rewritten
to the canonical rest sentinel. -/
def restNorm (l : List Int) : List Int :=
  l.map (fun p => if p < 0 then REST else p)

/-- `generate_solo()` as a function of the inputs read from module globals
and of the accumulator (`soloLinePitches`) the run starts from: the first
pass appends to the accumulator, then the smoothing and rest passes run
over the whole accumulator; on an exception the partial accumulator is
retained and no finalized output exists. -/
def generateSolo (chords : List JazzChord) (degrees dirs lens : List Int)
    (rest : Bool) (acc0 : List Int) : List Int × Option Err :=
  match firstPassGo degrees dirs lens rest chords 0 acc0 with
  | (acc, some e) => (acc, some e)
  | (acc, none) => (restNorm (smoothPass acc), none)

/-- A full fresh one-chorus generation run with the default configuration
(one chorus, rest fill active, empty accumulator): builds the form's
chords and runs `generate_solo`. -/
def runChorus1 : Except Err (List Int) :=
  match generateChorusChanges with
  | .error e => .error e
  | .ok cs =>
    match generateSolo cs DEFAULT_DOWN_BEAT_SCALE_DEGREES DEFAULT_LINE_DIRECTIONS
        chorusLineLengths true [] with
    | (_, some e) => .error e
    | (out, none) => .ok out

/-! ### Helper lemmas about the embedded operations -/

lemma pyIndex_coe (n k : Nat) (h : k ≤ n) : pyIndex n (k : Int) = k := by
  unfold pyIndex
  rw [if_neg (by omega)]
  simp only [Int.toNat_natCast]
  omega

lemma pyIndex_le (n : Nat) (k : Int) : pyIndex n k ≤ n := by
  unfold pyIndex
  split <;> omega

lemma invertPitches_zero (p : List Int) : invertPitches p 0 = p := by
  have h0 : pyIndex p.length ((0 : Nat) : Int) = 0 := pyIndex_coe _ 0 (Nat.zero_le _)
  simp only [invertPitches]
  norm_num at h0
  rw [h0]
  simp

lemma invertPitches_coe (p : List Int) (k : Nat) (h : k ≤ p.length) :
    invertPitches p (k : Int) = p.drop k ++ (p.take k).map (fun x => x + 12) := by
  simp only [invertPitches]
  rw [pyIndex_coe _ _ h]

lemma invertPitches_length (p : List Int) (k : Int) :
    (invertPitches p k).length = p.length := by
  have := pyIndex_le p.length k
  simp only [invertPitches, List.length_append, List.length_drop, List.length_map,
    List.length_take]
  omega

lemma sortPitches_length (l : List Int) : (sortPitches l).length = l.length :=
  List.length_insertionSort _ l

lemma mem_sortPitches {l : List Int} {x : Int} : x ∈ sortPitches l ↔ x ∈ l :=
  List.mem_insertionSort _

lemma mkChord_length {root : Int} {pat : List Int} {inv : Int} {c : Chord}
    (h : mkChord root pat inv = some c) : c.pitches.length = pat.length := by
  unfold mkChord at h
  split at h
  · exact absurd h (by simp)
  · rw [Option.some.injEq] at h
    subst h
    simp only [sortPitches_length, Chord.invert, invertPitches_length, List.length_map]

lemma removeAll_subset : ∀ (ps l : List Int), removeAll l ps ⊆ l
  | [], l => by simp [removeAll]
  | p :: tl, l => by
    intro x hx
    have h1 : removeAll l (p :: tl) = removeAll (l.filter (fun y => y ≠ p)) tl := rfl
    rw [h1] at hx
    exact List.mem_of_mem_filter (removeAll_subset tl _ hx)

lemma removeAll_not_mem : ∀ (ps l : List Int) (p : Int), p ∈ ps → p ∉ removeAll l ps
  | [], _, _, hp => absurd hp (by simp)
  | q :: tl, l, p, hp => by
    have h1 : removeAll l (q :: tl) = removeAll (l.filter (fun y => y ≠ q)) tl := rfl
    rw [h1]
    rcases List.mem_cons.mp hp with h | h
    · subst h
      intro hmem
      have h2 := removeAll_subset tl _ hmem
      simp only [List.mem_filter, decide_eq_true_eq] at h2
      exact h2.2 rfl
    · exact removeAll_not_mem tl _ p h

lemma mkChord_root {root : Int} {pat : List Int} {inv : Int} {c : Chord}
    (h : mkChord root pat inv = some c) : c.root = root := by
  unfold mkChord at h
  split at h
  · exact absurd h (by simp)
  · rw [Option.some.injEq] at h
    subst h
    rfl

lemma mkChord_maj7_pattern (r : Int) :
    mkChord r [0, 4, 7, 11] 0 = some ⟨r, [r, r + 4, r + 7, r + 11], [0, 4, 7, 11]⟩ := by
  have hsort : sortPitches [r, r + 4, r + 7, r + 11] = [r, r + 4, r + 7, r + 11] := by
    apply List.Sorted.insertionSort_eq
    simp only [List.sorted_cons, List.mem_cons, List.not_mem_nil, List.sorted_nil]
    refine ⟨?_, ?_, ?_, by simp⟩ <;> intro b hb <;>
      rcases hb with h | h | h | h <;> first | omega | simp_all | subst h <;> omega
  unfold mkChord
  rw [if_neg (by simp)]
  simp only [Chord.invert, List.length_cons, List.length_nil, List.map_cons, List.map_nil,
    Int.zero_emod, invertPitches_zero, add_zero]
  rw [hsort]
  have hsem : [r, r + 4, r + 7, r + 11].map (fun p => p - r) = [0, 4, 7, 11] := by
    simp only [List.map_cons, List.map_nil, List.cons.injEq]
    refine ⟨by omega, by omega, by omega, by omega, trivial⟩
  rw [hsem]

lemma not_exists_neg_maj7 (r : Int) (h0 : 0 ≤ r) :
    ¬ ∃ x ∈ ([r, r + 4, r + 7, r + 11] : List Int), x < 0 := by
  rintro ⟨x, hx, hlt⟩
  simp only [List.mem_cons, List.not_mem_nil, or_false] at hx
  rcases hx with h | h | h | h <;> omega

lemma mkJazzChord_maj7 (r : Int) (h0 : 0 ≤ r) :
    mkJazzChord r .maj7 0 =
      .ok ⟨r, [r, r + 4, r + 7, r + 11], [0, 4, 7, 11], some .major⟩ := by
  unfold mkJazzChord
  rw [show qualityList .maj7 = [0, 4, 7, 11] from rfl, mkChord_maj7_pattern]
  exact if_neg (not_exists_neg_maj7 r h0)

lemma mkJazzChord_freshMaj7 (r : Int) (h0 : 0 ≤ r) :
    mkJazzChord r (.otherList [0, 4, 7, 11]) 0 =
      .ok ⟨r, [r, r + 4, r + 7, r + 11], [0, 4, 7, 11], none⟩ := by
  unfold mkJazzChord
  rw [show qualityList (.otherList [0, 4, 7, 11]) = [0, 4, 7, 11] from rfl,
    mkChord_maj7_pattern]
  exact if_neg (not_exists_neg_maj7 r h0)

/-! ### Claim theorems -/

/-- C7: the chord difference operation applied to a list of pitches is
non-mutating and removes all occurrences of each listed pitch: the state
of the receiver after the call is unchanged, the operation succeeds (for a
chord whose semitone list is nonempty), and the returned chord keeps the
same root while containing zero copies of every listed pitch, even when
the receiver held duplicates. -/
theorem difference_removes_all_and_preserves_source (c : Chord) (ps : List Int)
    (h : c.semitones ≠ []) :
    (c.subPitches ps).1 = c
    ∧ (c.subPitches ps).2 ≠ none
    ∧ ∀ t, (c.subPitches ps).2 = some t → t.root = c.root ∧ ∀ p ∈ ps, p ∉ t.pitches := by
  rcases hmk : mkChord c.root c.semitones 0 with _ | temp
  · exfalso
    unfold mkChord at hmk
    split at hmk
    · exact h (by assumption)
    · exact absurd hmk (by simp)
  · have hroot : temp.root = c.root := mkChord_root hmk
    simp only [Chord.subPitches, hmk]
    refine ⟨trivial, by simp, ?_⟩
    intro t ht
    simp only [Option.some.injEq] at ht
    subst ht
    refine ⟨hroot, ?_⟩
    intro p hp hmem
    exact removeAll_not_mem ps temp.pitches p hp (mem_sortPitches.mp hmem)

/-- C7 witness: a chord holding the pitch 67 (G4) three times; removing
`[67]` removes every copy and the receiver is untouched. -/
theorem difference_removes_all_witness :
    (Chord.subPitches ⟨60, [60, 67, 67, 67], [0, 7, 7, 7]⟩ [67]).1
        = ⟨60, [60, 67, 67, 67], [0, 7, 7, 7]⟩
    ∧ (Chord.subPitches ⟨60, [60, 67, 67, 67], [0, 7, 7, 7]⟩ [67]).2 = some ⟨60, [60], [0]⟩
    ∧ (⟨60, [60], [0]⟩ : Chord).root = 60
    ∧ 67 ∉ (⟨60, [60], [0]⟩ : Chord).pitches := by
  have h := difference_removes_all_and_preserves_source
    ⟨60, [60, 67, 67, 67], [0, 7, 7, 7]⟩ [67] (by decide)
  have h2 : (Chord.subPitches ⟨60, [60, 67, 67, 67], [0, 7, 7, 7]⟩ [67]).2
      = some ⟨60, [60], [0]⟩ := by decide
  have h3 := h.2.2 ⟨60, [60], [0]⟩ h2
  exact ⟨h.1, h2, h3.1, h3.2 67 (by decide)⟩

/-- C8: the `JazzChord` constructor ignores its inversion argument — it
passes the literal 0 to the base `Chord` constructor — so any two
inversion arguments produce identical chords; by contrast the base
constructor does honor the inversion (shown at a concrete input), so the
subclass really discards the caller's value. -/
theorem jazz_chord_ignores_inversion_argument :
    (∀ (r : Int) (q : QualityRef) (k k2 : Int), mkJazzChord r q k = mkJazzChord r q k2)
    ∧ (mkChord 60 MAJOR_SEVENTH 1).map (fun c => c.pitches) = some [64, 67, 71, 72]
    ∧ (mkJazzChord 60 .maj7 1).map (fun c => c.pitches) = Except.ok [60, 64, 67, 71] :=
  ⟨fun _ _ _ _ => rfl, by decide, by decide⟩

lemma Chord.invert_pitches (c : Chord) (k : Int) :
    (c.invert k).pitches = invertPitches c.pitches k := rfl

/-- The B-flat major-seventh chord on C4 used as a concrete instance in
witnesses: `Chord(60, MAJOR_SEVENTH)`. -/
def cMaj60 : Chord := ⟨60, [60, 64, 67, 71], [0, 4, 7, 11]⟩

/-- C1 counterexample: on `Chord(60, MAJOR_TRIAD)` (pitches [60, 64, 67]),
`invert(1)` followed by `invert((3 - 1) % 3) = invert(2)` yields pitches
[72, 76, 79]: the original pitch set transposed up an octave, not the
original pitch set — 72 is not even a member of the original set. -/
theorem invert_complement_counterexample :
    (mkChord 60 MAJOR_TRIAD 0).map (fun c => ((c.invert 1).invert ((3 - 1) % 3)).pitches)
        = some [72, 76, 79]
    ∧ (mkChord 60 MAJOR_TRIAD 0).map (fun c => c.pitches) = some [60, 64, 67]
    ∧ (72 : Int) ∉ ([60, 64, 67] : List Int)
    ∧ (60 : Int) ∉ ([72, 76, 79] : List Int) := by decide

/-- C1 amended: for a chord built from a pattern of length n at inversion
0, `invert(k)` followed by `invert((n - k) % n)` restores the original
pitch list only for k = 0; for 0 < k < n it yields the original pitch
list transposed up one octave (so the pitch-class set is restored, the
pitch set is not). -/
theorem invert_complement_transposes_up_octave (root : Int) (pat : List Int)
    (c : Chord) (k : Nat) (hc : mkChord root pat 0 = some c) (hk : k < pat.length) :
    ((c.invert k).invert (((pat.length : Int) - k) % (pat.length : Int))).pitches
      = if k = 0 then c.pitches else c.pitches.map (fun x => x + 12) := by
  have hlen : c.pitches.length = pat.length := mkChord_length hc
  by_cases h0 : k = 0
  · subst h0
    rw [if_pos rfl]
    have harg : (((pat.length : Int) - ((0 : Nat) : Int)) % (pat.length : Int)) = 0 := by
      push_cast
      rw [sub_zero, Int.emod_self]
    rw [harg, Chord.invert_pitches, Chord.invert_pitches]
    norm_num
    rw [invertPitches_zero, invertPitches_zero]
  · have hkpos : 0 < k := Nat.pos_of_ne_zero h0
    have hklen : k ≤ c.pitches.length := by omega
    have h1 : (c.invert (k : Int)).pitches
        = c.pitches.drop k ++ (c.pitches.take k).map (fun x => x + 12) := by
      rw [Chord.invert_pitches, invertPitches_coe _ _ hklen]
    have hcast : ((pat.length - k : Nat) : Int) = (pat.length : Int) - k := by
      push_cast [Nat.cast_sub (le_of_lt hk)]
      ring
    have harg : ((pat.length : Int) - (k : Int)) % (pat.length : Int)
        = ((pat.length - k : Nat) : Int) := by
      rw [hcast]
      exact Int.emod_eq_of_lt (by omega) (by omega)
    rw [harg]
    have hlen2 : (c.pitches.drop k ++ (c.pitches.take k).map (fun x => x + 12)).length
        = pat.length := by
      simp only [List.length_append, List.length_drop, List.length_map, List.length_take]
      omega
    have h2 : ((c.invert (k : Int)).invert ((pat.length - k : Nat) : Int)).pitches
        = (c.pitches.drop k ++ (c.pitches.take k).map (fun x => x + 12)).drop (pat.length - k)
          ++ ((c.pitches.drop k ++ (c.pitches.take k).map (fun x => x + 12)).take
              (pat.length - k)).map (fun x => x + 12) := by
      rw [Chord.invert_pitches, h1, invertPitches_coe]
      rw [hlen2]
      omega
    rw [h2]
    have hA : (c.pitches.drop k).length = pat.length - k := by
      simp only [List.length_drop]
      omega
    rw [List.drop_left' hA, List.take_left' hA]
    rw [if_neg h0]
    calc (c.pitches.take k).map (fun x => x + 12)
          ++ (c.pitches.drop k).map (fun x => x + 12)
        = (c.pitches.take k ++ c.pitches.drop k).map (fun x => x + 12) :=
          (List.map_append _ _ _).symm
      _ = c.pitches.map (fun x => x + 12) := by rw [List.take_append_drop]

/-- C1 witness: the amended theorem applied to `Chord(60, MAJOR_SEVENTH)`
at k = 1. -/
theorem invert_complement_witness :
    ((cMaj60.invert ((1 : Nat) : Int)).invert
        (((MAJOR_SEVENTH.length : Int) - ((1 : Nat) : Int)) % (MAJOR_SEVENTH.length : Int))).pitches
      = if (1 : Nat) = 0 then cMaj60.pitches else cMaj60.pitches.map (fun x => x + 12) :=
  invert_complement_transposes_up_octave 60 MAJOR_SEVENTH cMaj60 1 (by decide) (by decide)

/-- C5 counterexample: `invert` applies no modulo reduction — on
`Chord(60, MAJOR_TRIAD)`, `invert(3)` raises every pitch an octave
instead of equalling `invert(3 % 3) = invert(0)`; and on a chord spanning
more than an octave (pattern [0, 14]) the result of `invert(1)` is
[74, 72], which is not sorted ascending. -/
theorem invert_no_modulo_counterexample :
    (mkChord 60 MAJOR_TRIAD 0).map (fun c => (c.invert 3).pitches) = some [72, 76, 79]
    ∧ (mkChord 60 MAJOR_TRIAD 0).map (fun c => (c.invert ((3 : Int) % 3)).pitches)
        = some [60, 64, 67]
    ∧ ([72, 76, 79] : List Int) ≠ [60, 64, 67]
    ∧ (mkChord 60 [0, 14] 0).map (fun c => (c.invert 1).pitches) = some [74, 72]
    ∧ ¬ List.Sorted (fun a b : Int => a ≤ b) [74, 72] := by decide

/-- C5 amended: `invert(k)` keeps the root, replaces the pitch list by
`pitches[k:] + (pitches[:k] each +12)` under Python slice semantics, and
returns the chord itself.  For 0 ≤ k ≤ len this is the slice formula; for
-len < k < 0 it agrees with `invert(k + len)`; but no modulo is applied:
for k ≥ len it equals `invert(len)` (every pitch raised an octave), and
for k ≤ -len it leaves the pitch list unchanged.  The result is sorted
ascending provided the chord was sorted and spans at most one octave. -/
theorem invert_slice_semantics (c : Chord) (k : Int) :
    (c.invert k).root = c.root
    ∧ (0 ≤ k → k ≤ (c.pitches.length : Int) →
        (c.invert k).pitches
          = c.pitches.drop k.toNat ++ (c.pitches.take k.toNat).map (fun x => x + 12))
    ∧ (-(c.pitches.length : Int) < k → k < 0 →
        c.invert k = c.invert (k + (c.pitches.length : Int)))
    ∧ ((c.pitches.length : Int) ≤ k → c.invert k = c.invert (c.pitches.length : Int))
    ∧ (k ≤ -(c.pitches.length : Int) → (c.invert k).pitches = c.pitches)
    ∧ (List.Sorted (fun a b : Int => a ≤ b) c.pitches →
        (∀ x ∈ c.pitches, ∀ y ∈ c.pitches, x ≤ y + 12) → 0 ≤ k →
        List.Sorted (fun a b : Int => a ≤ b) (c.invert k).pitches) := by
  refine ⟨rfl, ?_, ?_, ?_, ?_, ?_⟩
  · intro h1 h2
    rw [Chord.invert_pitches]
    have hj : pyIndex c.pitches.length k = k.toNat := by
      unfold pyIndex
      rw [if_neg (by omega)]
      omega
    simp only [invertPitches, hj]
  · intro h1 h2
    have hj : pyIndex c.pitches.length k
        = pyIndex c.pitches.length (k + (c.pitches.length : Int)) := by
      unfold pyIndex
      rw [if_pos (by omega), if_neg (by omega)]
      omega
    simp only [Chord.invert, invertPitches, hj]
  · intro h1
    have hj : pyIndex c.pitches.length k
        = pyIndex c.pitches.length ((c.pitches.length : Int)) := by
      unfold pyIndex
      rw [if_neg (by omega), if_neg (by omega)]
      omega
    simp only [Chord.invert, invertPitches, hj]
  · intro h1
    have hj : pyIndex c.pitches.length k = 0 := by
      unfold pyIndex
      split <;> omega
    simp only [Chord.invert, invertPitches, hj]
    simp
  · intro hs hspan hk0
    rw [Chord.invert_pitches]
    have hjle : pyIndex c.pitches.length k ≤ c.pitches.length := pyIndex_le _ _
    show List.Pairwise _ _
    apply List.pairwise_append.mpr
    refine ⟨List.Pairwise.sublist (List.drop_sublist _ _) hs, ?_, ?_⟩
    · exact List.pairwise_map.mpr
        ((List.Pairwise.sublist (List.take_sublist _ _) hs).imp (by intro a b hab; omega))
    · intro a ha b hb
      simp only [List.mem_map] at hb
      obtain ⟨y, hy, rfl⟩ := hb
      exact hspan a (List.drop_subset _ _ ha) y (List.take_subset _ _ hy)

/-- C5 witness: the slice-semantics theorem applied to
`Chord(60, MAJOR_SEVENTH)` at k = 2, -2, 7 and -9. -/
theorem invert_slice_semantics_witness :
    (cMaj60.invert 2).pitches
        = cMaj60.pitches.drop (2 : Int).toNat
          ++ (cMaj60.pitches.take (2 : Int).toNat).map (fun x => x + 12)
    ∧ cMaj60.invert (-2) = cMaj60.invert (-2 + (cMaj60.pitches.length : Int))
    ∧ cMaj60.invert 7 = cMaj60.invert ((cMaj60.pitches.length : Int))
    ∧ (cMaj60.invert (-9)).pitches = cMaj60.pitches
    ∧ List.Sorted (fun a b : Int => a ≤ b) (cMaj60.invert 2).pitches :=
  ⟨(invert_slice_semantics cMaj60 2).2.1 (by decide) (by decide),
   (invert_slice_semantics cMaj60 (-2)).2.2.1 (by decide) (by decide),
   (invert_slice_semantics cMaj60 7).2.2.2.1 (by decide),
   (invert_slice_semantics cMaj60 (-9)).2.2.2.2.1 (by decide),
   (invert_slice_semantics cMaj60 2).2.2.2.2.2 (by decide) (by decide) (by decide)⟩

lemma map_ext_int (f g : Int → Int) (h : ∀ x, f x = g x) :
    ∀ l : List Int, l.map f = l.map g
  | [] => rfl
  | x :: tl => by simp only [List.map_cons, h x, map_ext_int f g h tl]

lemma map_up_down (l : List Int) :
    (l.map (fun x => x + 12)).map (fun x => x - 12) = l := by
  induction l with
  | nil => rfl
  | cons x tl ih =>
    simp only [List.map_cons, ih, List.cons.injEq]
    exact ⟨by omega, trivial⟩

/-- C3 counterexample: the smoothing pass leaves a downward jump of two
octaves (84 followed by 60) completely untouched — no compensating shift
of the following notes happens, because the source only corrects the case
where the next note lies an octave or more *above* the current one (the
converse block is commented out). -/
theorem smoothing_ignores_downward_jump :
    smoothPass [84, 60, 60, 60, 60, 60] = [84, 60, 60, 60, 60, 60]
    ∧ 12 < ([84, 60, 60, 60, 60, 60] : List Int).getD 0 0
          - ([84, 60, 60, 60, 60, 60] : List Int).getD 1 0
    ∧ (0 : Int) ≤ ([84, 60, 60, 60, 60, 60] : List Int).getD 0 0 := by decide

/-- C3 amended: the octave-smoothing pass corrects in one direction only:
at index i (with at least four following entries) it fires only when the
note is non-negative and the next note is an octave or more above it, and
then lowers the following four entries an octave.  A line with no such
upward overshoot — in particular one whose large leaps are all downward —
passes through unchanged. -/
theorem smoothing_only_corrects_upward_overshoot (l : List Int)
    (h : ∀ i < l.length, i + 4 < l.length → 0 ≤ l.getD i 0 →
        -12 < l.getD i 0 - l.getD (i + 1) 0) :
    smoothPass l = l := by
  suffices hgo : ∀ fuel i, smoothGo fuel i l = l from hgo l.length 0
  intro fuel
  induction fuel with
  | zero => intro i; rfl
  | succ n ih =>
    intro i
    rw [smoothGo]
    by_cases hbreak : i + 4 ≥ l.length
    · rw [if_pos hbreak]
    · rw [if_neg hbreak]
      have hcond : ¬ (0 ≤ l.getD i 0 ∧ l.getD i 0 - l.getD (i + 1) 0 ≤ -12) := by
        rintro ⟨hp, hd⟩
        have := h i (by omega) (by omega) hp
        omega
      rw [if_neg hcond]
      exact ih (i + 1)

/-- C3 witness: a line whose adjacent jumps are at most 11 semitones
upward (including an 11-semitone downward jump) is returned unchanged. -/
theorem smoothing_only_corrects_upward_overshoot_witness :
    smoothPass [70, 81, 70, 60, 60, 60] = [70, 81, 70, 60, 60, 60] :=
  smoothing_only_corrects_upward_overshoot [70, 81, 70, 60, 60, 60] (by decide)

/-- C4 counterexample: the raw line of the actual run's twelfth slot
(degree 7 descending on B major seventh, whole note, rest padding) —
[71, 75, 78, 82] padded with four rest sentinels — contains a note below
the lowest bound (the rests), yet the clamp returns it unchanged: the
upward shift fires and is immediately cancelled by the downward shift, so
two octave-shifts are applied and the line is not shifted up. -/
theorem clamp_shifts_twice_counterexample :
    clampLine ([71, 75, 78, 82] ++ List.replicate 4 REST)
        = [71, 75, 78, 82] ++ List.replicate 4 REST
    ∧ (∃ x ∈ [71, 75, 78, 82] ++ List.replicate 4 REST, x < LOWEST_NOTE)
    ∧ ([71, 75, 78, 82] ++ List.replicate 4 REST).map (fun x => x + 12)
        ≠ [71, 75, 78, 82] ++ List.replicate 4 REST := by decide

/-- C4 amended: the clamp is a single non-iterative pass in which the
upward shift (any note, rest sentinels included, below the lowest bound)
and the downward shift (any note of the possibly-shifted line above the
highest bound) each fire at most once, so the returned line is always the
input shifted uniformly by one octave up, one octave down, or not at all
(the two shifts cancel when both fire); a line already inside the band is
returned unchanged. -/
theorem clamp_single_net_octave_shift (l : List Int) :
    (∃ s : Int, (s = -1 ∨ s = 0 ∨ s = 1) ∧ clampLine l = l.map (fun x => x + 12 * s))
    ∧ ((∀ x ∈ l, LOWEST_NOTE ≤ x ∧ x ≤ HIGHEST_NOTE) → clampLine l = l) := by
  constructor
  · simp only [clampLine]
    by_cases h1 : ∃ x ∈ l, x < LOWEST_NOTE
    · rw [if_pos h1]
      by_cases h2 : ∃ x ∈ l.map (fun x => x + 12), HIGHEST_NOTE < x
      · rw [if_pos h2]
        refine ⟨0, Or.inr (Or.inl rfl), ?_⟩
        rw [map_up_down]
        symm
        rw [map_ext_int (fun x => x + 12 * 0) (fun x => x) (fun x => by ring) l, List.map_id']
      · rw [if_neg h2]
        refine ⟨1, Or.inr (Or.inr rfl), ?_⟩
        exact map_ext_int _ _ (fun x => by ring) l
    · rw [if_neg h1]
      by_cases h2 : ∃ x ∈ l, HIGHEST_NOTE < x
      · rw [if_pos h2]
        refine ⟨-1, Or.inl rfl, ?_⟩
        exact map_ext_int _ _ (fun x => by ring) l
      · rw [if_neg h2]
        refine ⟨0, Or.inr (Or.inl rfl), ?_⟩
        symm
        rw [map_ext_int (fun x => x + 12 * 0) (fun x => x) (fun x => by ring) l, List.map_id']
  · intro hin
    have h1 : ¬ ∃ x ∈ l, x < LOWEST_NOTE := by
      rintro ⟨x, hx, hlt⟩
      have := (hin x hx).1
      omega
    have h2 : ¬ ∃ x ∈ l, HIGHEST_NOTE < x := by
      rintro ⟨x, hx, hlt⟩
      have := (hin x hx).2
      omega
    simp only [clampLine]
    rw [if_neg h1, if_neg h2]

/-- C4 witness: the amended theorem applied to the in-band line [70, 84]. -/
theorem clamp_single_net_octave_shift_witness :
    clampLine [70, 84] = [70, 84] :=
  (clamp_single_net_octave_shift [70, 84]).2 (by decide)

/-- The B-major-seventh chord of the form's first slot,
`JazzChord(B4 = 71, MAJOR_SEVENTH, 0)`, used as a concrete instance. -/
def bMaj71 : JazzChord := ⟨71, [71, 75, 78, 82], [0, 4, 7, 11], some .major⟩

set_option maxRecDepth 40000 in
/-- C2 counterexample: the full default one-chorus generation run
completes without error, and its finalized solo line contains a pitch
that is non-negative (hence not the rest sentinel, which is negative) and
strictly below LOWEST_NOTE — the configured band is violated after all
normalization passes. -/
theorem finalized_run_contains_out_of_band_pitch :
    runChorus1.map (fun l => l.any (fun p => decide (0 ≤ p) && decide (p < LOWEST_NOTE)))
        = Except.ok true
    ∧ REST < 0 := by decide

/-- C2 amended: what the passes do guarantee is weaker than the band
invariant — after the rest-normalization pass every entry of a
successfully finalized solo line is either the canonical rest sentinel or
a non-negative pitch; pitches outside [LOWEST_NOTE, HIGHEST_NOTE] can and
do survive. -/
theorem finalized_entries_rest_or_nonneg (chords : List JazzChord)
    (degrees dirs lens : List Int) (rest : Bool) (acc0 : List Int) (out : List Int)
    (h : generateSolo chords degrees dirs lens rest acc0 = (out, none)) :
    ∀ x ∈ out, x = REST ∨ 0 ≤ x := by
  unfold generateSolo at h
  rcases hfp : firstPassGo degrees dirs lens rest chords 0 acc0 with ⟨acc, err⟩
  rw [hfp] at h
  cases err with
  | some e => simp at h
  | none =>
    have hout : out = restNorm (smoothPass acc) := by
      have h1 := congrArg Prod.fst h
      simpa using h1.symm
    subst hout
    intro x hx
    unfold restNorm at hx
    simp only [List.mem_map] at hx
    obtain ⟨p, hp, rfl⟩ := hx
    by_cases hneg : p < 0
    · left
      rw [if_pos hneg]
    · right
      rw [if_neg hneg]
      omega

/-- C2 witness: the amended theorem applied to a one-slot run on the
B-major-seventh chord, at the first produced pitch. -/
theorem finalized_entries_rest_or_nonneg_witness :
    (71 : Int) = REST ∨ (0 : Int) ≤ 71 :=
  finalized_entries_rest_or_nonneg [bMaj71] [1] [1] [4] true [] [71, 73, 75, 78]
    (by decide) 71 (by decide)

/-- C6 counterexample: a run that hits a fatal condition (scale degree 8,
outside the supported table, raising an IndexError at downbeat
resolution) leaves the four pitches it had already appended in the shared
module-level accumulator; a subsequent, perfectly valid run started from
that leftover state returns a different solo than the same run started
fresh — the fatal condition does affect another generation run. -/
theorem fatal_run_leaks_into_next_run :
    mkJazzChord 71 .maj7 0 = .ok bMaj71
    ∧ generateSolo [bMaj71, bMaj71, bMaj71] [1, 1, 8] [1, 1, 1] [4, 4, 4] true []
        = ([71, 73, 75, 78], some .indexError)
    ∧ (generateSolo [bMaj71] [1] [1] [4] true [71, 73, 75, 78]).1
        ≠ (generateSolo [bMaj71] [1] [1] [4] true []).1 := by decide

/-- C6 amended: a fatal condition aborts the run (the exception
propagates, so nothing is handed to the playback collaborator), but the
module-level solo accumulator is never reset between runs: the partial
notes appended before the abort persist, and the next run — here the same
single-chord run executed from the leftover state versus fresh — emits
them prepended to its own output, so generation runs are not isolated
from one another. -/
theorem fatal_abort_retains_accumulator :
    generateSolo [bMaj71, bMaj71, bMaj71] [1, 1, 8] [1, 1, 1] [4, 4, 4] true []
        = ([71, 73, 75, 78], some .indexError)
    ∧ generateSolo [bMaj71] [1] [1] [4] true [] = ([71, 73, 75, 78], none)
    ∧ generateSolo [bMaj71] [1] [1] [4] true [71, 73, 75, 78]
        = ([71, 73, 75, 78] ++ [71, 73, 75, 78], none) := by decide

/-- C9 counterexample: for starting degree 7 with the descending
direction (direction 0) and no padding needed, `create_line` applies no
inversion at all: on `JazzChord(60, MAJOR_SEVENTH)` the chord comes back
with its pitch list identical to the constructed one, although an
in-place `invert` of 1, 2 or 3 positions would each have changed the
pitch list. -/
theorem degree7_descending_does_not_invert :
    mkJazzChord 60 .maj7 0 = .ok ⟨60, [60, 64, 67, 71], [0, 4, 7, 11], some .major⟩
    ∧ createLine 71 0 ⟨60, [60, 64, 67, 71], [0, 4, 7, 11], some .major⟩ 0 4 7 true
        = .ok ([72, 76, 79, 83], ⟨60, [60, 64, 67, 71], [0, 4, 7, 11], some .major⟩)
    ∧ (JazzChord.invert ⟨60, [60, 64, 67, 71], [0, 4, 7, 11], some .major⟩ 1).pitches
        ≠ [60, 64, 67, 71]
    ∧ (JazzChord.invert ⟨60, [60, 64, 67, 71], [0, 4, 7, 11], some .major⟩ 2).pitches
        ≠ [60, 64, 67, 71]
    ∧ (JazzChord.invert ⟨60, [60, 64, 67, 71], [0, 4, 7, 11], some .major⟩ 3).pitches
        ≠ [60, 64, 67, 71] := by decide

/-- C9 amended: `create_line` does mutate its chord argument for degree 3
(shown ascending: in-place first inversion, and with rest fill the
padding rests land in the chord's own pitch list), for degree 5 with a
note count other than 8 (shown descending: third inversion, octave drop
and in-place reversal), and for degree 7 ascending (third inversion); but
degree 7 descending applies no inversion — the chord's pitch list is
mutated there only through the rest-padding aliasing (note count 8), and
is completely untouched when no padding is needed (note count 4). -/
theorem create_line_mutation_profile (r : Int) (h0 : 0 ≤ r) (c : JazzChord)
    (hc : mkJazzChord r .maj7 0 = .ok c) :
    c.pitches = [r, r + 4, r + 7, r + 11]
    ∧ (createLine 0 0 c 1 8 3 true).map (fun x => x.2.pitches)
        = .ok ([r + 4, r + 7, r + 11, r + 12] ++ List.replicate 4 REST)
    ∧ (createLine 0 0 c 0 4 5 true).map (fun x => x.2.pitches)
        = .ok [r + 7, r + 4, r, r - 1]
    ∧ (createLine 0 0 c 1 4 7 true).map (fun x => x.2.pitches)
        = .ok [r + 11, r + 12, r + 16, r + 19]
    ∧ (createLine 0 0 c 0 8 7 true).map (fun x => x.2.pitches)
        = .ok ([r, r + 4, r + 7, r + 11] ++ List.replicate 4 REST)
    ∧ (createLine 0 0 c 0 4 7 true).map (fun x => x.2.pitches)
        = .ok [r, r + 4, r + 7, r + 11]
    ∧ REST ∈ [r + 4, r + 7, r + 11, r + 12] ++ List.replicate 4 REST
    ∧ ([r + 4, r + 7, r + 11, r + 12] ++ List.replicate 4 REST) ≠ [r, r + 4, r + 7, r + 11] := by
  have hceq := Except.ok.inj (hc.symm.trans (mkJazzChord_maj7 r h0))
  subst hceq
  refine ⟨rfl, rfl, ?_, ?_, rfl, rfl, ?_, ?_⟩
  · have h3 : (createLine 0 0 ⟨r, [r, r + 4, r + 7, r + 11], [0, 4, 7, 11], some .major⟩
        0 4 5 true).map (fun x => x.2.pitches)
        = .ok [r + 7 + 12 - 12, r + 4 + 12 - 12, r + 12 - 12, r + 11 - 12] := rfl
    rw [h3]
    norm_num
    omega
  · have h4 : (createLine 0 0 ⟨r, [r, r + 4, r + 7, r + 11], [0, 4, 7, 11], some .major⟩
        1 4 7 true).map (fun x => x.2.pitches)
        = .ok [r + 11, r + 12, r + 4 + 12, r + 7 + 12] := rfl
    rw [h4]
    norm_num
    constructor <;> omega
  · simp
  · intro h
    have := congrArg List.length h
    simp at this

/-- C9 witness: the mutation profile at root 60 — degree 3 ascending with
rest fill leaves the chord holding its first inversion plus four rest
sentinels. -/
theorem create_line_mutation_profile_witness :
    (createLine 0 0 ⟨60, [60, 64, 67, 71], [0, 4, 7, 11], some .major⟩ 1 8 3 true).map
        (fun x => x.2.pitches)
      = .ok ([60 + 4, 60 + 7, 60 + 11, 60 + 12] ++ List.replicate 4 REST) :=
  (create_line_mutation_profile 60 (by decide)
    ⟨60, [60, 64, 67, 71], [0, 4, 7, 11], some .major⟩ (by decide)).2.1

/-- C10: attaching a scale to a `JazzChord` goes by object identity of
the quality argument: a fresh list with exactly the value of
MAJOR_SEVENTH yields a chord with no scale attribute (while the
recognized constant yields the major scale and identical pitches), and
every later consultation of the scale — downbeat resolution, the
generator loop, or the degree-1 branch of `create_line` — fails with an
AttributeError, not with the generator's domain-error assert. -/
theorem identity_based_scale_assignment (r : Int) (h0 : 0 ≤ r) (c : JazzChord)
    (hc : mkJazzChord r (.otherList [0, 4, 7, 11]) 0 = .ok c) :
    c.scale = none
    ∧ c.pitches = [r, r + 4, r + 7, r + 11]
    ∧ (∀ c2, mkJazzChord r .maj7 0 = .ok c2 → c2.scale = some .major ∧ c2.pitches = c.pitches)
    ∧ resolveDownBeat c 3 = .error .attributeError
    ∧ generateSolo [c] [3] [1] [4] true [] = ([], some .attributeError)
    ∧ createLine r 0 c 1 4 1 true = .error .attributeError := by
  have hceq := Except.ok.inj (hc.symm.trans (mkJazzChord_freshMaj7 r h0))
  subst hceq
  refine ⟨rfl, rfl, ?_, rfl, rfl, ?_⟩
  · intro c2 hcc
    have h3 := Except.ok.inj (hcc.symm.trans (mkJazzChord_maj7 r h0))
    subst h3
    exact ⟨rfl, rfl⟩
  · unfold createLine
    rw [if_neg (by omega)]
    rfl

/-- C10 witness: the identity-based scale assignment at root 60. -/
theorem identity_based_scale_assignment_witness :
    (⟨60, [60, 64, 67, 71], [0, 4, 7, 11], none⟩ : JazzChord).scale = none
    ∧ generateSolo [⟨60, [60, 64, 67, 71], [0, 4, 7, 11], none⟩] [3] [1] [4] true []
        = ([], some .attributeError) := by
  have h := identity_based_scale_assignment 60 (by decide)
    ⟨60, [60, 64, 67, 71], [0, 4, 7, 11], none⟩ (by decide)
  exact ⟨h.1, h.2.2.2.2.1⟩
